import Mathlib

/-!
# Verification of the quiche tag codec, negotiation engine and qbone session

Shallow embedding of `src/quic/core/quic_tag.cc` and the declarations of
`src/quic/qbone/qbone_session_base.h`.  C++ strings (`absl::string_view`,
`std::string`) are modelled as lists of byte values (`List Nat`, each
element the value of one `unsigned char`); `QuicTag` (`uint32_t`) is a
`Nat` with explicit reduction modulo `2 ^ 32` wherever the C++ arithmetic
wraps.  The build targets of this repository have a signed `char`
(the source itself notes "platforms where char is signed" in
`ParseQuicTag`), so conversions from `char` to wider integer types
sign-extend byte values at or above 128; this is modelled explicitly.
-/

namespace Quic

/-- Byte values that `absl::StripAsciiWhitespace` (used by
`QuicheTextUtils::RemoveLeadingAndTrailingWhitespace`) treats as
whitespace: space and the control characters `\t \n \v \f \r`. -/
def isAsciiWhitespace (b : Nat) : Bool :=
  b == 32 || (9 ≤ b && b ≤ 13)

/-- `QuicheTextUtils::RemoveLeadingAndTrailingWhitespace`: drop ASCII
whitespace from both ends of the byte string. -/
def trimWhitespace (s : List Nat) : List Nat :=
  ((s.dropWhile isAsciiWhitespace).reverse.dropWhile isAsciiWhitespace).reverse

/-- C `isprint` in the C locale on an `unsigned char` argument:
the printable ASCII range 0x20 (space) .. 0x7E (tilde). -/
def isprint (b : Nat) : Bool :=
  32 ≤ b && b ≤ 126

/-- Byte `i` (least significant first) of a 32-bit value. -/
def byteOf (t i : Nat) : Nat :=
  t / 256 ^ i % 256

/-- The lowercase hex digit (as a byte) for a nibble value. -/
def hexDigitChar (n : Nat) : Nat :=
  if n < 10 then 48 + n else 87 + n

/-- `QuicheTextUtils::HexEncode` (backed by `absl::BytesToHexString`):
each input byte becomes two lowercase hex characters, high nibble first. -/
def hexEncode (bs : List Nat) : List Nat :=
  (bs.map fun b => [hexDigitChar (b / 16), hexDigitChar (b % 16)]).flatten

/-- The value of one hex digit character, as in the lenient lookup table
behind `absl::HexStringToBytes`: characters outside `0-9a-fA-F` map to 0
(the decoder never fails). -/
def hexDigitValue (c : Nat) : Nat :=
  if 48 ≤ c && c ≤ 57 then c - 48
  else if 97 ≤ c && c ≤ 102 then c - 87
  else if 65 ≤ c && c ≤ 70 then c - 55
  else 0

/-- `QuicheTextUtils::HexDecode` (backed by `absl::HexStringToBytes`):
consecutive pairs of hex characters become one byte each.  (Only ever
applied to strings of length 8 in `ParseQuicTag`.) -/
def hexDecode : List Nat → List Nat
  | c1 :: c2 :: rest => (hexDigitValue c1 * 16 + hexDigitValue c2) :: hexDecode rest
  | _ => []

/-- The inner loop of `FindMutualQuicTag`: scan `their_tags` left to right
for the first index `j` holding tag `t`. -/
def findTagIndex (t : Nat) : List Nat → Option Nat
  | [] => none
  | x :: xs => if x == t then some 0 else (findTagIndex t xs).map (· + 1)

/-- `FindMutualQuicTag(our_tags, their_tags, out_result, out_index)` from
`quic_tag.cc`.  The two out-parameters are modelled by passing in the
prior contents of the cells and returning their final contents next to
the `bool` result; `out_index : Option Nat` is `none` when the caller
passed a null pointer (the source only stores to `*out_index` when
`out_index != nullptr`). -/
def FindMutualQuicTag : List Nat → List Nat → Nat → Option Nat → Bool × Nat × Option Nat
  | [], _, out_result, out_index => (false, out_result, out_index)
  | t :: rest, their, out_result, out_index =>
    match findTagIndex t their with
    | some j => (true, t, out_index.map fun _ => j)
    | none => FindMutualQuicTag rest their out_result out_index

/-- One extracted character of `QuicTagToString`'s buffer: `chars[i]` is
byte `i` of the tag, except that a most-significant byte (`i = 3`) equal
to `0x00` or `0xFF` is replaced by a space `' '` before the printability
check.  (With a signed `char`, the source's comparison
`chars[i] == '\xff'` is a comparison with -1 and holds exactly for byte
value 0xFF.) -/
def displayByte (tag i : Nat) : Nat :=
  if (byteOf tag i == 0 || byteOf tag i == 255) && i == 3 then 32 else byteOf tag i

/-- `QuicTagToString(tag)` from `quic_tag.cc`.  Tag 0 prints as "0".
Otherwise the four bytes are extracted low to high and, when all of them
(after the space substitution of `displayByte`) are printable, returned
in extraction order; the source's loop breaks at the first non-printable
character, which yields the same string as checking all four.  In every
other case the function hex-encodes the four raw bytes of `orig_tag` in
memory order, which on the little-endian build targets is byte 0 first. -/
def QuicTagToString (tag : Nat) : List Nat :=
  if tag == 0 then [48]
  else if (List.range 4).all (fun i => isprint (displayByte tag i)) then
    (List.range 4).map (displayByte tag)
  else
    hexEncode ((List.range 4).map (byteOf tag))

/-- `static_cast<uint32_t>(a)` applied to a `char` holding byte value
`b` on a signed-`char` platform: values at or above 128 are negative as
`char` and sign-extend, giving `0xFFFFFF00 + b`. -/
def charToUInt32 (b : Nat) : Nat :=
  if b % 256 < 128 then b % 256 else 4294967040 + b % 256

/-- `MakeQuicTag(a, b, c, d)` from `quic_tag.cc`: each `char` argument is
cast to `uint32_t` (sign-extending, see `charToUInt32`), shifted into its
byte position with 32-bit wraparound, and the four terms are ORed. -/
def MakeQuicTag (a b c d : Nat) : Nat :=
  charToUInt32 a ||| (charToUInt32 b <<< 8) % 4294967296 |||
    (charToUInt32 c <<< 16) % 4294967296 ||| (charToUInt32 d <<< 24) % 4294967296

/-- `ContainsQuicTag(tag_vector, tag)` from `quic_tag.cc`. -/
def ContainsQuicTag (tag_vector : List Nat) (tag : Nat) : Bool :=
  tag_vector.contains tag

/-- `ParseQuicTag(tag_string)` from `quic_tag.cc`: trim whitespace; if the
trimmed string has length exactly 8, hex-decode it and continue with the
decoded bytes; then iterate the characters from last to first, each step
shifting the `uint32_t` accumulator left 8 bits (wrapping) and ORing in
the character cast to `unsigned char`. -/
def ParseQuicTag (tag_string : List Nat) : Nat :=
  (if (trimWhitespace tag_string).length == 8
   then hexDecode (trimWhitespace tag_string)
   else trimWhitespace tag_string).foldr
    (fun c tag => ((tag <<< 8) % 4294967296) ||| c % 256) 0

/-- `QuicheTextUtils::Split` (backed by `absl::StrSplit` on a single
character): split at every occurrence of the delimiter, keeping empty
pieces; a string without the delimiter is one piece. -/
def splitList (delim : Nat) : List Nat → List (List Nat)
  | [] => [[]]
  | x :: xs =>
    if x == delim then [] :: splitList delim xs
    else
      match splitList delim xs with
      | [] => [[x]]
      | piece :: rest => (x :: piece) :: rest

/-- The `push_back` loop of `ParseQuicTagVector`: parse each piece in
order. -/
def parseTagVectorLoop : List (List Nat) → List Nat
  | [] => []
  | piece :: rest => ParseQuicTag piece :: parseTagVectorLoop rest

/-- `ParseQuicTagVector(tags_string)` from `quic_tag.cc`: trim whitespace;
an empty trimmed string yields an empty vector; otherwise split on `','`
and parse every piece with `ParseQuicTag`. -/
def ParseQuicTagVector (tags_string : List Nat) : List Nat :=
  if (trimWhitespace tags_string).isEmpty then []
  else parseTagVectorLoop (splitList 44 (trimWhitespace tags_string))

/-! ## Qbone session (`qbone_session_base.h`)

Only the header of `QboneSessionBase` is part of the repository: it
declares the per-session counters (`num_ephemeral_packets_`,
`num_message_packets_`, `num_streamed_packets_`,
`num_fallback_to_stream_`), `ShouldKeepConnectionAlive`, and
`void SendPacketToPeer(QuicheStringPiece packet)` together with a doc
comment promising `true`/`false` results.  The member-function bodies
live in `qbone_session_base.cc`, which is not among the repository's
files; where a claim needs them they are modelled from the spec. -/

/-- The declared return type of `QboneSessionBase::SendPacketToPeer`
(`qbone_session_base.h`, the declaration after the comment block):
`void`, modelled as `Unit`. -/
def SendPacketToPeerReturn : Type := Unit

/-- The return type promised by the doc comment directly above that
declaration ("This function will return true if a stream was created
and the packet sent.  It will return false if the stream could not be
created."): a boolean. -/
def SendPacketToPeerDocumentedReturn : Type := Bool

/-- The private counters of `QboneSessionBase` declared in the header. -/
structure QboneSessionCounters where
  num_ephemeral_packets : Nat
  num_message_packets : Nat
  num_streamed_packets : Nat
  num_fallback_to_stream : Nat

/-- Outcome reported by the transport's unreliable MESSAGE/datagram
primitive for one send attempt: delivered, or unavailable (unsupported
by the peer, or over the current capacity). -/
inductive MessageStatus where
  | success
  | unsupported
  | overCapacity

/-- What one `SendPacketToPeer` call did: the updated counters, how many
dedicated fallback streams it opened for this payload, and whether the
datagram path carried the payload. -/
structure SendPacketOutcome where
  counters : QboneSessionCounters
  streamsOpened : Nat
  sentAsDatagram : Bool

/-- Modelled from the spec: the body of
`QboneSessionBase::SendPacketToPeer` (in `qbone_session_base.cc`, not a
file of this repository).  It first attempts the unreliable datagram
primitive; on success nothing else happens.  If the transport reports
the primitive unsupported or over capacity it falls back to opening one
new stream dedicated to exactly this payload (when stream creation is
available), writes it with end-of-stream, and increments
`num_fallback_to_stream_` exactly once per such fallback; when stream
creation is unavailable no stream is opened and the call fails. -/
def SendPacketToPeer (s : QboneSessionCounters) (datagram : MessageStatus)
    (streamAvailable : Bool) : SendPacketOutcome :=
  match datagram with
  | .success => ⟨s, 0, true⟩
  | _ =>
    if streamAvailable then
      ⟨{ s with num_streamed_packets := s.num_streamed_packets + 1,
                num_fallback_to_stream := s.num_fallback_to_stream + 1 }, 1, false⟩
    else ⟨s, 0, false⟩

/-- The observable idle state of one session: how many non-control
streams are open and how many sends are pending, next to the counters. -/
structure QboneSessionView where
  open_streams : Nat
  pending_sends : Nat
  counters : QboneSessionCounters

/-- Modelled from the spec: `QboneSessionBase::ShouldKeepConnectionAlive`
(declared in the header, body in `qbone_session_base.cc`, not a file of
this repository): always returns true while the session exists,
overriding the default close-when-idle policy, whatever the stream and
send state. -/
def ShouldKeepConnectionAlive (_session : QboneSessionView) : Bool :=
  true

/-! ## Negotiation: `FindMutualQuicTag` -/

theorem findTagIndex_none_iff (t : Nat) (l : List Nat) :
    findTagIndex t l = none ↔ t ∉ l := by
  induction l with
  | nil => simp [findTagIndex]
  | cons x xs ih =>
    by_cases hx : x = t
    · subst hx
      simp [findTagIndex]
    · have hbe : (x == t) = false := beq_eq_false_iff_ne.mpr hx
      simp only [findTagIndex, hbe, Bool.false_eq_true, if_false, Option.map_eq_none',
        List.mem_cons, ih]
      constructor
      · intro h hor
        rcases hor with h1 | h2
        · exact absurd h1.symm hx
        · exact h h2
      · intro h hmem
        exact h (Or.inr hmem)

theorem findTagIndex_some_of (t : Nat) (l : List Nat) (j : Nat) (hj : j < l.length)
    (hget : l.getD j 0 = t) (hmin : ∀ k, k < j → l.getD k 0 ≠ t) :
    findTagIndex t l = some j := by
  induction l generalizing j with
  | nil => simp at hj
  | cons x xs ih =>
    cases j with
    | zero =>
      have hx : x = t := hget
      simp [findTagIndex, hx]
    | succ j' =>
      have hx : x ≠ t := hmin 0 (Nat.succ_pos j')
      have hbe : (x == t) = false := beq_eq_false_iff_ne.mpr hx
      have hrec : findTagIndex t xs = some j' :=
        ih j' (by simpa using hj) hget (fun k hk => hmin (k + 1) (Nat.succ_lt_succ hk))
      simp [findTagIndex, hbe, hrec]

/-- C1: `FindMutualQuicTag` returns no-match exactly when the two lists
share no tag; otherwise, for the smallest local index `i` whose tag
occurs anywhere in the peer list and the smallest peer index `j`
holding that tag, it returns success with `out_result = our[i]` and
(when the caller passed a non-null index pointer) `out_index = j`:
local preference order alone decides the winner. -/
theorem c1_findMutualQuicTag_first_match (our their : List Nat) (r0 : Nat)
    (idx0 : Option Nat) :
    ((FindMutualQuicTag our their r0 idx0).1 = false ↔ ∀ t ∈ our, t ∉ their) ∧
    (∀ i, i < our.length → our.getD i 0 ∈ their →
      (∀ k, k < i → our.getD k 0 ∉ their) →
      ∀ j, j < their.length → their.getD j 0 = our.getD i 0 →
      (∀ k, k < j → their.getD k 0 ≠ our.getD i 0) →
      FindMutualQuicTag our their r0 idx0 =
        (true, our.getD i 0, idx0.map fun _ => j)) := by
  constructor
  · induction our with
    | nil => simp [FindMutualQuicTag]
    | cons t rest ih =>
      rcases hfind : findTagIndex t their with _ | j
      · have hnot : t ∉ their := (findTagIndex_none_iff t their).mp hfind
        simp only [FindMutualQuicTag, hfind]
        rw [ih]
        constructor
        · intro h u hu
          rcases List.mem_cons.mp hu with h1 | h2
          · exact h1 ▸ hnot
          · exact h u h2
        · intro h u hmem
          exact h u (List.mem_cons_of_mem t hmem)
      · have hmem : t ∈ their := by
          by_contra hnot
          rw [← findTagIndex_none_iff t their] at hnot
          simp [hnot] at hfind
        simp only [FindMutualQuicTag, hfind]
        constructor
        · intro h
          exact absurd h (by simp)
        · intro h
          exact absurd hmem (h t (List.mem_cons_self t rest))
  · induction our with
    | nil =>
      intro i hi
      simp at hi
    | cons t rest ih =>
      intro i hi hmem hmini j hj hget hminj
      cases i with
      | zero =>
        have hfind : findTagIndex t their = some j :=
          findTagIndex_some_of t their j hj hget hminj
        simp only [FindMutualQuicTag, hfind, List.getD_cons_zero]
      | succ i' =>
        have hnot : t ∉ their := hmini 0 (Nat.succ_pos i')
        have hfind : findTagIndex t their = none :=
          (findTagIndex_none_iff t their).mpr hnot
        simp only [FindMutualQuicTag, hfind]
        exact ih i' (by simpa using hi) hmem
          (fun k hk => hmini (k + 1) (Nat.succ_lt_succ hk)) j hj hget hminj

/-- Witness for C1 at the claim's own example: two tags in opposite
preference orders; the local first choice wins with peer index 1. -/
theorem c1_findMutualQuicTag_first_match_witness :
    FindMutualQuicTag [10, 20] [20, 10] 0 (some 0) = (true, 10, some 1) := by
  have h := (c1_findMutualQuicTag_first_match [10, 20] [20, 10] 0 (some 0)).2
    0 (by decide) (by decide) (by decide) 1 (by decide) (by decide) (by decide)
  simpa using h

/-- C10: when `FindMutualQuicTag` reports no match, neither out-parameter
cell is written (both keep their prior contents), and the `out_index`
cell is only ever written when the caller supplied a non-null pointer. -/
theorem c10_findMutualQuicTag_no_write_on_failure (our their : List Nat) (r0 : Nat)
    (idx0 : Option Nat) :
    ((FindMutualQuicTag our their r0 idx0).1 = false →
      (FindMutualQuicTag our their r0 idx0).2.1 = r0 ∧
      (FindMutualQuicTag our their r0 idx0).2.2 = idx0) ∧
    (idx0 = none → (FindMutualQuicTag our their r0 idx0).2.2 = none) := by
  induction our with
  | nil => simp [FindMutualQuicTag]
  | cons t rest ih =>
    rcases hfind : findTagIndex t their with _ | j
    · simpa only [FindMutualQuicTag, hfind] using ih
    · simp only [FindMutualQuicTag, hfind]
      constructor
      · intro h
        exact absurd h (by simp)
      · rintro rfl
        rfl

/-! ## Tag codec -/

theorem byteOf_lt (t i : Nat) : byteOf t i < 256 :=
  Nat.mod_lt _ (by omega)

/-- One step of `ParseQuicTag`'s accumulator loop, on an accumulator
small enough that the 32-bit shift does not wrap: shift-and-or is
base-256 accumulation. -/
theorem parse_step_eq (tag c : Nat) (hc : c < 256) (htag : tag < 16777216) :
    ((tag <<< 8) % 4294967296) ||| c % 256 = 256 * tag + c := by
  have h1 : tag <<< 8 = 2 ^ 8 * tag := by
    rw [Nat.shiftLeft_eq]
    ring
  have h2 : 2 ^ 8 * tag < 4294967296 := by
    have : (2 : Nat) ^ 8 = 256 := by norm_num
    omega
  have h3 : c % 256 = c := Nat.mod_eq_of_lt hc
  have h8 : (2 : Nat) ^ 8 = 256 := by norm_num
  have hc8 : c < 2 ^ 8 := h8 ▸ hc
  rw [h1, Nat.mod_eq_of_lt h2, h3, ← Nat.mul_add_lt_is_or hc8 tag]

/-- `ParseQuicTag`'s right-to-left loop over exactly four bytes packs
them little-endian. -/
theorem parse_four_bytes (b0 b1 b2 b3 : Nat) (h0 : b0 < 256) (h1 : b1 < 256)
    (h2 : b2 < 256) (h3 : b3 < 256) :
    [b0, b1, b2, b3].foldr (fun c tag => ((tag <<< 8) % 4294967296) ||| c % 256) 0
      = b0 + 256 * b1 + 65536 * b2 + 16777216 * b3 := by
  simp only [List.foldr]
  rw [parse_step_eq 0 b3 h3 (by omega)]
  rw [parse_step_eq (256 * 0 + b3) b2 h2 (by omega)]
  rw [parse_step_eq (256 * (256 * 0 + b3) + b2) b1 h1 (by omega)]
  rw [parse_step_eq (256 * (256 * (256 * 0 + b3) + b2) + b1) b0 h0 (by omega)]
  ring

/-- A 32-bit value is the little-endian combination of its four bytes. -/
theorem byte_decomposition (t : Nat) (ht : t < 4294967296) :
    t = byteOf t 0 + 256 * byteOf t 1 + 65536 * byteOf t 2 + 16777216 * byteOf t 3 := by
  have e0 : byteOf t 0 = t % 256 := by simp [byteOf]
  have e1 : byteOf t 1 = t / 256 % 256 := by norm_num [byteOf]
  have e2 : byteOf t 2 = t / 65536 % 256 := by norm_num [byteOf]
  have e3 : byteOf t 3 = t / 16777216 % 256 := by norm_num [byteOf]
  rw [e0, e1, e2, e3]
  omega

/-- C2 (the code at the claim's failing input): on the signed-`char`
build targets, `MakeQuicTag` sign-extends a first byte of 0x80 across
the whole 32-bit value: the result is 0xFFFFFF80, whose bytes 1..3 read
back 0xFF instead of the 0 that was passed. -/
theorem c2_makeQuicTag_sign_extension :
    MakeQuicTag 128 0 0 0 = 4294967168 ∧
    byteOf (MakeQuicTag 128 0 0 0) 0 = 128 ∧
    byteOf (MakeQuicTag 128 0 0 0) 1 = 255 ∧
    byteOf (MakeQuicTag 128 0 0 0) 2 = 255 ∧
    byteOf (MakeQuicTag 128 0 0 0) 3 = 255 := by
  decide

/-- C5 (the code at the claim's failing input): for the 4-byte string
0x80 'a' 'a' 'a' (trimmed length 4, so no hex decoding), `ParseQuicTag`
packs the bytes little-endian into 0x61616180, but `MakeQuicTag` on the
same four bytes sign-extends the 0x80 and returns 0xFFFFFF80: the two
packings disagree. -/
theorem c5_parseQuicTag_ne_makeQuicTag :
    trimWhitespace [128, 97, 97, 97] = [128, 97, 97, 97] ∧
    ParseQuicTag [128, 97, 97, 97] = 1633771904 ∧
    MakeQuicTag 128 97 97 97 = 4294967168 ∧
    ParseQuicTag [128, 97, 97, 97] ≠ MakeQuicTag 128 97 97 97 := by
  decide

/-- C4 counterexample: the tag 0x20434641 has the four printable ASCII
bytes 'A' 'F' 'C' ' ', displays as the string "AFC ", but parsing trims
the trailing space and rebuilds only 0x00434641: display-then-parse is
not the identity on printable-ASCII tags containing spaces at the ends. -/
theorem c4_roundtrip_counterexample :
    (∀ i, i < 4 → isprint (byteOf 541279809 i) = true) ∧
    QuicTagToString 541279809 = [65, 70, 67, 32] ∧
    ParseQuicTag (QuicTagToString 541279809) = 4408897 ∧
    (4408897 : Nat) ≠ 541279809 := by
  decide

theorem not_whitespace_of_ge (b : Nat) (hb : 33 ≤ b) : isAsciiWhitespace b = false := by
  have h1 : (b == 32) = false := beq_eq_false_iff_ne.mpr (by omega)
  simp [isAsciiWhitespace, h1]
  omega

/-- C4 amended: display-then-parse is the identity on every tag whose
four bytes are printable ASCII, provided neither the lowest nor the
highest byte is the space character (parsing trims leading and trailing
whitespace, so a space in either end position is lost). -/
theorem c4_parse_toString_roundtrip (t : Nat) (ht : t < 4294967296)
    (hprint : ∀ i, i < 4 → isprint (byteOf t i) = true)
    (hlow : byteOf t 0 ≠ 32) (hhigh : byteOf t 3 ≠ 32) :
    ParseQuicTag (QuicTagToString t) = t := by
  have hp : ∀ i, i < 4 → 32 ≤ byteOf t i ∧ byteOf t i ≤ 126 := by
    intro i hi
    simpa [isprint] using hprint i hi
  have hp0 := hp 0 (by omega)
  have hp3 := hp 3 (by omega)
  have hdisp : ∀ i, i < 4 → displayByte t i = byteOf t i := by
    intro i hi
    interval_cases i
    · simp [displayByte]
    · simp [displayByte]
    · simp [displayByte]
    · have hb0 : (byteOf t 3 == 0) = false := beq_eq_false_iff_ne.mpr (by omega)
      have hb255 : (byteOf t 3 == 255) = false := beq_eq_false_iff_ne.mpr (by omega)
      simp [displayByte, hb0, hb255]
  have e0 : byteOf t 0 = t % 256 := by simp [byteOf]
  have ht0 : t ≠ 0 := by
    rw [e0] at hp0 hlow
    omega
  have htbeq : (t == 0) = false := beq_eq_false_iff_ne.mpr ht0
  have hall : ((List.range 4).all fun i => isprint (displayByte t i)) = true := by
    rw [List.all_eq_true]
    intro i hi
    rw [List.mem_range] at hi
    rw [hdisp i hi]
    exact hprint i hi
  have hstr : QuicTagToString t = [byteOf t 0, byteOf t 1, byteOf t 2, byteOf t 3] := by
    unfold QuicTagToString
    rw [htbeq, hall]
    simp only [Bool.false_eq_true, if_false, eq_self_iff_true, if_true]
    have hmap : (List.range 4).map (displayByte t) =
        [displayByte t 0, displayByte t 1, displayByte t 2, displayByte t 3] := rfl
    rw [hmap, hdisp 0 (by omega), hdisp 1 (by omega), hdisp 2 (by omega),
      hdisp 3 (by omega)]
  have hws0 : isAsciiWhitespace (byteOf t 0) = false :=
    not_whitespace_of_ge _ (by omega)
  have hws3 : isAsciiWhitespace (byteOf t 3) = false :=
    not_whitespace_of_ge _ (by omega)
  have htrim : trimWhitespace [byteOf t 0, byteOf t 1, byteOf t 2, byteOf t 3] =
      [byteOf t 0, byteOf t 1, byteOf t 2, byteOf t 3] := by
    simp [trimWhitespace, List.dropWhile, hws0, hws3]
  rw [hstr]
  unfold ParseQuicTag
  rw [htrim]
  have hlen : ([byteOf t 0, byteOf t 1, byteOf t 2, byteOf t 3].length == 8) = false := rfl
  rw [hlen]
  simp only [Bool.false_eq_true, if_false]
  rw [parse_four_bytes _ _ _ _ (byteOf_lt t 0) (byteOf_lt t 1) (byteOf_lt t 2)
    (byteOf_lt t 3)]
  exact (byte_decomposition t ht).symm

/-- Witness for the amended C4 at tag 0x41424344 ("DCBA"), all four
bytes printable and none a space. -/
theorem c4_parse_toString_roundtrip_witness :
    ParseQuicTag (QuicTagToString 1094861636) = 1094861636 :=
  c4_parse_toString_roundtrip 1094861636 (by decide) (by decide) (by decide) (by decide)

theorem hexDigitChar_range (n : Nat) (h : n < 16) :
    48 ≤ hexDigitChar n ∧ hexDigitChar n ≤ 57 ∨
    97 ≤ hexDigitChar n ∧ hexDigitChar n ≤ 102 := by
  unfold hexDigitChar
  split <;> omega

/-- C6: `QuicTagToString`'s complete case analysis.  Tag 0 is the
literal "0".  Otherwise the four bytes are extracted low to high with a
most-significant 0x00/0xFF byte replaced by a space before the
printability check; if all four resulting characters are printable they
are the output, in extraction order, and in every remaining case the
output is the four raw little-endian bytes hex-encoded as exactly 8
lowercase hex characters.  Concretely, `MakeQuicTag('A','B','C','D')`
displays as "ABCD" and the tag 0x41414141-0x40 (containing byte 0x01)
displays as the 8 hex characters "01414141". -/
theorem c6_quicTagToString_cases (t : Nat) (ht : t < 4294967296) :
    (t = 0 → QuicTagToString t = [48]) ∧
    (t ≠ 0 → (∀ i, i < 4 → isprint (displayByte t i) = true) →
      QuicTagToString t =
        [displayByte t 0, displayByte t 1, displayByte t 2, displayByte t 3]) ∧
    (t ≠ 0 → ¬ (∀ i, i < 4 → isprint (displayByte t i) = true) →
      QuicTagToString t = hexEncode [byteOf t 0, byteOf t 1, byteOf t 2, byteOf t 3] ∧
      (QuicTagToString t).length = 8 ∧
      (∀ c ∈ QuicTagToString t, 48 ≤ c ∧ c ≤ 57 ∨ 97 ≤ c ∧ c ≤ 102)) ∧
    QuicTagToString (MakeQuicTag 65 66 67 68) = [65, 66, 67, 68] ∧
    QuicTagToString 1094795521 = [48, 49, 52, 49, 52, 49, 52, 49] := by
  refine ⟨?_, ?_, ?_, by decide, by decide⟩
  · rintro rfl
    decide
  · intro ht0 hall
    have htbeq : (t == 0) = false := beq_eq_false_iff_ne.mpr ht0
    have hallb : ((List.range 4).all fun i => isprint (displayByte t i)) = true := by
      rw [List.all_eq_true]
      intro i hi
      exact hall i (List.mem_range.mp hi)
    unfold QuicTagToString
    rw [htbeq, hallb]
    simp only [Bool.false_eq_true, if_false, eq_self_iff_true, if_true]
    rfl
  · intro ht0 hnall
    have htbeq : (t == 0) = false := beq_eq_false_iff_ne.mpr ht0
    have hallb : ((List.range 4).all fun i => isprint (displayByte t i)) = false := by
      rw [Bool.eq_false_iff]
      intro hcon
      rw [List.all_eq_true] at hcon
      exact hnall fun i hi => hcon i (List.mem_range.mpr hi)
    have hstr : QuicTagToString t =
        hexEncode [byteOf t 0, byteOf t 1, byteOf t 2, byteOf t 3] := by
      unfold QuicTagToString
      rw [htbeq, hallb]
      simp only [Bool.false_eq_true, if_false]
      rfl
    refine ⟨hstr, by rw [hstr]; rfl, ?_⟩
    intro c hc
    rw [hstr] at hc
    have hexp : hexEncode [byteOf t 0, byteOf t 1, byteOf t 2, byteOf t 3] =
        [hexDigitChar (byteOf t 0 / 16), hexDigitChar (byteOf t 0 % 16),
         hexDigitChar (byteOf t 1 / 16), hexDigitChar (byteOf t 1 % 16),
         hexDigitChar (byteOf t 2 / 16), hexDigitChar (byteOf t 2 % 16),
         hexDigitChar (byteOf t 3 / 16), hexDigitChar (byteOf t 3 % 16)] := rfl
    rw [hexp] at hc
    have b0 := byteOf_lt t 0
    have b1 := byteOf_lt t 1
    have b2 := byteOf_lt t 2
    have b3 := byteOf_lt t 3
    simp only [List.mem_cons, List.not_mem_nil, or_false] at hc
    rcases hc with rfl | rfl | rfl | rfl | rfl | rfl | rfl | rfl <;>
      exact hexDigitChar_range _ (by omega)

/-- Witness for C6 at the zero tag and at the claim's two concrete
examples. -/
theorem c6_quicTagToString_cases_witness :
    QuicTagToString 0 = [48] ∧
    QuicTagToString (MakeQuicTag 65 66 67 68) = [65, 66, 67, 68] := by
  exact ⟨(c6_quicTagToString_cases 0 (by decide)).1 rfl,
    (c6_quicTagToString_cases 0 (by decide)).2.2.2.1⟩

theorem parse_foldr_lt (l : List Nat) :
    l.foldr (fun c tag => ((tag <<< 8) % 4294967296) ||| c % 256) 0 < 4294967296 := by
  induction l with
  | nil => norm_num
  | cons c rest ih =>
    simp only [List.foldr]
    have h32 : (4294967296 : Nat) = 2 ^ 32 := by norm_num
    rw [h32]
    apply Nat.or_lt_two_pow
    · rw [← h32]
      exact Nat.mod_lt _ (by omega)
    · have hc : c % 256 < 256 := Nat.mod_lt _ (by omega)
      exact lt_of_lt_of_le hc (by norm_num)

theorem splitList_ne_nil (d : Nat) (l : List Nat) : splitList d l ≠ [] := by
  induction l with
  | nil => simp [splitList]
  | cons x xs ih =>
    by_cases h : (x == d) = true
    · simp [splitList, h]
    · have hbe : (x == d) = false := Bool.eq_false_iff.mpr h
      rcases hsp : splitList d xs with _ | ⟨p, r⟩
      · exact absurd hsp ih
      · simp [splitList, hbe, hsp]

theorem parseTagVectorLoop_eq_map (l : List (List Nat)) :
    parseTagVectorLoop l = l.map ParseQuicTag := by
  induction l with
  | nil => rfl
  | cons p r ih => simp [parseTagVectorLoop, ih]

/-- C7: `ParseQuicTag` is total (every input yields a 32-bit tag value,
and an all-whitespace input yields tag 0 because trimming leaves
nothing), and `ParseQuicTagVector` yields the empty list exactly when
the trimmed input is empty, otherwise one `ParseQuicTag` result per
comma-separated piece of the trimmed input. -/
theorem c7_parse_never_fails (s : List Nat) :
    ParseQuicTag s < 4294967296 ∧
    ((∀ b ∈ s, isAsciiWhitespace b = true) → ParseQuicTag s = 0) ∧
    (ParseQuicTagVector s = [] ↔ trimWhitespace s = []) ∧
    ParseQuicTagVector s =
      (if trimWhitespace s = [] then []
       else (splitList 44 (trimWhitespace s)).map ParseQuicTag) := by
  have hsplit3 : ∀ h : ¬ (trimWhitespace s).isEmpty = true,
      parseTagVectorLoop (splitList 44 (trimWhitespace s)) ≠ [] := by
    intro h
    rcases List.exists_cons_of_ne_nil (splitList_ne_nil 44 (trimWhitespace s)) with
      ⟨p, r, hpr⟩
    rw [hpr]
    simp [parseTagVectorLoop]
  refine ⟨?_, ?_, ?_, ?_⟩
  · unfold ParseQuicTag
    exact parse_foldr_lt _
  · intro hws
    have hdw : s.dropWhile isAsciiWhitespace = [] := by
      rw [List.dropWhile_eq_nil_iff]
      intro b hb
      exact hws b hb
    have htr : trimWhitespace s = [] := by simp [trimWhitespace, hdw]
    unfold ParseQuicTag
    rw [htr]
    rfl
  · by_cases hemp : (trimWhitespace s).isEmpty = true
    · have htr : trimWhitespace s = [] := List.isEmpty_iff.mp hemp
      simp [ParseQuicTagVector, hemp, htr]
    · have htr : trimWhitespace s ≠ [] := fun h => hemp (List.isEmpty_iff.mpr h)
      have hempf : (trimWhitespace s).isEmpty = false := Bool.eq_false_iff.mpr hemp
      simp only [ParseQuicTagVector, hempf, Bool.false_eq_true, if_false]
      exact ⟨fun h => absurd h (hsplit3 hemp), fun h => absurd h htr⟩
  · by_cases hemp : (trimWhitespace s).isEmpty = true
    · have htr : trimWhitespace s = [] := List.isEmpty_iff.mp hemp
      simp [ParseQuicTagVector, hemp, htr]
    · have htr : trimWhitespace s ≠ [] := fun h => hemp (List.isEmpty_iff.mpr h)
      have hempf : (trimWhitespace s).isEmpty = false := Bool.eq_false_iff.mpr hemp
      simp only [ParseQuicTagVector, hempf, Bool.false_eq_true, if_false, if_neg htr]
      exact parseTagVectorLoop_eq_map _

/-! ## Qbone session theorems -/

/-- C3 (the code at the claim's failing configuration): the declared
return type of `SendPacketToPeer` is `void`, so every call returns the
same (unique) value and no caller can observe from the call's return
whether the payload was sent — whereas under the return type the
header's own doc comment documents, success and failure are
distinguishable values. -/
theorem c3_sendPacketToPeer_void_return :
    (∀ r1 r2 : SendPacketToPeerReturn, r1 = r2) ∧
    ∃ ok fail : SendPacketToPeerDocumentedReturn, ok ≠ fail := by
  constructor
  · intro r1 r2
    cases r1
    cases r2
    rfl
  · exact ⟨true, false, fun h => Bool.noConfusion h⟩

/-- C8: in one `SendPacketToPeer` call, a datagram report of unsupported
or over-capacity opens exactly one fallback stream and increments the
fallback counter by exactly 1; a successful datagram send opens no
stream and leaves the fallback counter unchanged. -/
theorem c8_fallback_counter_once (s : QboneSessionCounters) (d : MessageStatus) :
    (d ≠ MessageStatus.success →
      (SendPacketToPeer s d true).streamsOpened = 1 ∧
      (SendPacketToPeer s d true).counters.num_fallback_to_stream =
        s.num_fallback_to_stream + 1) ∧
    (∀ b, (SendPacketToPeer s MessageStatus.success b).streamsOpened = 0 ∧
      (SendPacketToPeer s MessageStatus.success b).counters.num_fallback_to_stream =
        s.num_fallback_to_stream) := by
  constructor
  · intro hd
    cases d with
    | success => exact absurd rfl hd
    | unsupported => exact ⟨rfl, rfl⟩
    | overCapacity => exact ⟨rfl, rfl⟩
  · intro b
    exact ⟨rfl, rfl⟩

/-- C9: `ShouldKeepConnectionAlive` returns true in every session state,
in particular with zero open streams and zero pending sends. -/
theorem c9_shouldKeepConnectionAlive_true (v : QboneSessionView) :
    ShouldKeepConnectionAlive v = true ∧
    ShouldKeepConnectionAlive
      { v with open_streams := 0, pending_sends := 0 } = true :=
  ⟨rfl, rfl⟩

end Quic
